import Mathlib

set_option maxRecDepth 10000

/-!
Verification of pygbm (tanlab fork) against its natural-language specification.

Shallow embedding conventions:
* numpy float arrays are modelled as functions from an index type into `ℚ`
  (exact arithmetic; the accumulation *structure* of the source is preserved);
* python lists are Lean `List`s;
* fallible code is modelled with `Bool`/`Option` results;
* the boosting loop of `fit` is modelled with explicit fuel (the fuel measures
  the remaining distance to `max_iter`, which is exactly the loop's break test).

Sources embedded here: `pygbm/gradient_boosting.py` (in the repository), and —
for the binner and predictor, whose modules `pygbm/binning.py` /
`pygbm/predictor.py` are not part of the available sources — definitions
modelled from the specification, marked as such in their doc comments.
-/

/-! ## Ensemble prediction (`gradient_boosting.py`, `_raw_predict`, lines 205-224)

    raw_predictions = np.zeros(X.shape[0], dtype=np.float32)
    for predictor in self.predictors_:
        raw_predictions += predictor.predict(X)

A fitted `Predictor` is modelled as a function from a sample to its scalar
contribution; the sample matrix `X` as a function from a row index `ι` to a
sample. -/

def raw_predict {σ ι : Type} (predictors : List (σ → ℚ)) (X : ι → σ) : ι → ℚ :=
  predictors.foldl (fun acc p => fun i => acc i + p (X i)) (fun _ => 0)

/-- `GradientBoostingRegressor.predict` (lines 352-365): `return self._raw_predict(X)`. -/
def regressor_predict {σ ι : Type} (predictors : List (σ → ℚ)) (X : ι → σ) : ι → ℚ :=
  raw_predict predictors X

/-- `_predict_binned` (lines 226-245): same accumulation as `_raw_predict` but
calling each predictor's `predict_binned` on the bin-coded matrix:

    predicted = np.zeros(X_binned.shape[0], dtype=np.float32)
    for predictor in self.predictors_:
        predicted += predictor.predict_binned(X_binned)
-/
def predict_binned_ens {σ ι : Type} (predictors : List (σ → ℚ)) (Xb : ι → σ) : ι → ℚ :=
  predictors.foldl (fun acc p => fun i => acc i + p (Xb i)) (fun _ => 0)

theorem foldl_accum_apply {σ ι : Type} (X : ι → σ) (i : ι) :
    ∀ (ps : List (σ → ℚ)) (acc : ι → ℚ),
      (ps.foldl (fun acc p => fun j => acc j + p (X j)) acc) i
        = acc i + (ps.map (fun p => p (X i))).sum
  | [], acc => by simp
  | p :: ps, acc => by
    simp only [List.foldl_cons, List.map_cons, List.sum_cons]
    rw [foldl_accum_apply X i ps]
    ring

theorem raw_predict_apply {σ ι : Type} (ps : List (σ → ℚ)) (X : ι → σ) (i : ι) :
    raw_predict ps X i = (ps.map (fun p => p (X i))).sum := by
  unfold raw_predict
  rw [foldl_accum_apply]
  simp

theorem predict_binned_ens_apply {σ ι : Type} (ps : List (σ → ℚ)) (Xb : ι → σ) (i : ι) :
    predict_binned_ens ps Xb i = (ps.map (fun p => p (Xb i))).sum := by
  unfold predict_binned_ens
  rw [foldl_accum_apply]
  simp

/-! ## Early stopping (`_should_stop`, lines 281-291)

    if (len(scores) == 0 or
            (self.max_no_improvement
             and len(scores) < self.max_no_improvement)):
        return False
    context_scores = scores[-self.max_no_improvement:]
    candidate = scores[-self.max_no_improvement]
    tol = 0. if self.tol is None else self.tol
    best_with_tol = max(context_scores) * (1 - tol)
    return candidate >= best_with_tol

`_validate_parameters` guarantees `max_no_improvement >= 1`; for `m >= 1` the
python slice `scores[-m:]` is `drop (length - m)` (clamped to the whole list
when `m > length`, a case the guard already rules out) and `scores[-m]` is the
first element of that slice.  `max` of the nonempty slice is a `foldl max`
over it; the unreachable empty-slice case (python would raise) returns
`false`. -/

def should_stop (max_no_improvement : ℕ) (tol : Option ℚ) (scores : List ℚ) : Bool :=
  if scores.length = 0 ∨ (max_no_improvement ≠ 0 ∧ scores.length < max_no_improvement) then
    false
  else
    match scores.drop (scores.length - max_no_improvement) with
    | [] => false
    | candidate :: rest =>
      decide (candidate ≥ (rest.foldl max candidate) * (1 - tol.getD 0))

/-! ## Parameter validation (`_validate_parameters`, lines 42-72, and `fit`, lines 99-110)

`fit` runs `self._validate_parameters()` before constructing the `BinMapper`
and binning the data.  The checks performed, in source order: membership of
`loss` in the global registry `_LOSSES` and in the class's `_VALID_LOSSES`,
`learning_rate > 0`, `max_iter >= 1`, `max_no_improvement >= 1`,
`validation_split > 0` when not `None`, `tol > 0`.  Its docstring:
"The parameters that are directly passed to the grower are checked in
TreeGrower." -/

structure GBMParams where
  loss : String
  learning_rate : ℚ
  max_iter : ℤ
  max_leaf_nodes : ℤ
  max_depth : Option ℤ
  min_samples_leaf : ℤ
  l2_regularization : ℚ
  max_bins : ℤ
  max_no_improvement : ℤ
  validation_split : Option ℚ
  scoring : String
  tol : ℚ

/-- The loss registry `_LOSSES` from `pygbm.loss` (squared error, logistic,
softmax — spec §9). -/
def lossRegistry : List String :=
  ["least_squares", "binary_crossentropy", "categorical_crossentropy"]

/-- `GradientBoostingRegressor._VALID_LOSSES = ('least_squares',)`. -/
def regressorValidLosses : List String := ["least_squares"]

def validate_parameters (valid_losses : List String) (p : GBMParams) : Bool :=
  (p.loss ∈ lossRegistry) &&
  (p.loss ∈ valid_losses) &&
  (0 < p.learning_rate) &&
  (1 ≤ p.max_iter) &&
  (1 ≤ p.max_no_improvement) &&
  (match p.validation_split with
   | none => true
   | some v => 0 < v) &&
  (0 < p.tol)

/-! ## Boosting loop shrinkage schedule (`fit`, lines 156-178)

    self.n_iter_ = 0
    while True:
        should_stop = self._stopping_criterion(...)
        if should_stop or self.n_iter_ == self.max_iter:
            break
        shrinkage = 1. if self.n_iter_ == 0 else self.learning_rate
        ... TreeGrower(..., shrinkage=shrinkage) ...
        self.n_iter_ += 1

The grower itself is external to this claim; the model records, per executed
round, the shrinkage value handed to `TreeGrower`.  The stopping criterion is
abstracted as a boolean function of the round number; the fuel argument is
`max_iter - n_iter_`, so fuel 0 is exactly the `n_iter_ == max_iter` break. -/

def fit_shrinkages (lr : ℚ) (stop : ℕ → Bool) : ℕ → ℕ → List ℚ
  | _, 0 => []
  | n, fuel + 1 =>
    if stop n then []
    else (if n = 0 then (1 : ℚ) else lr) :: fit_shrinkages lr stop (n + 1) fuel

/-- The sequence of shrinkage values used by one run of `fit`. -/
def fit_shrinkage_schedule (lr : ℚ) (stop : ℕ → Bool) (max_iter : ℕ) : List ℚ :=
  fit_shrinkages lr stop 0 max_iter

theorem fit_shrinkages_getD (lr : ℚ) (stop : ℕ → Bool) :
    ∀ (fuel n i : ℕ), i < (fit_shrinkages lr stop n fuel).length →
      (fit_shrinkages lr stop n fuel).getD i 0 = if n + i = 0 then 1 else lr
  | 0, n, i => by simp [fit_shrinkages]
  | fuel + 1, n, i => by
    intro hi
    by_cases hs : stop n
    · simp [fit_shrinkages, hs] at hi
    · have hdef : fit_shrinkages lr stop n (fuel + 1)
          = (if n = 0 then (1 : ℚ) else lr) :: fit_shrinkages lr stop (n + 1) fuel := by
        simp [fit_shrinkages, hs]
      match i with
      | 0 => simp [hdef]
      | i + 1 =>
        rw [hdef] at hi ⊢
        simp only [List.length_cons, Nat.add_lt_add_iff_right] at hi
        simp only [List.getD_cons_succ]
        rw [fit_shrinkages_getD lr stop fuel (n + 1) i hi]
        have h1 : ¬(n + 1 + i = 0) := by omega
        have h2 : ¬(n + (i + 1) = 0) := by omega
        simp [h1, h2]

/-- Claim C10: in every fit run, the tree grown in the first boosting
iteration is built with shrinkage fixed at 1.0 regardless of the configured
learning rate, and every tree of a later iteration is built with shrinkage
equal to `learning_rate`. -/
theorem first_round_shrinkage_one_then_learning_rate
    (lr : ℚ) (stop : ℕ → Bool) (max_iter : ℕ) (i : ℕ)
    (hi : i < (fit_shrinkage_schedule lr stop max_iter).length) :
    (fit_shrinkage_schedule lr stop max_iter).getD i 0 = if i = 0 then 1 else lr := by
  unfold fit_shrinkage_schedule at *
  have h := fit_shrinkages_getD lr stop max_iter 0 i hi
  simpa using h

theorem first_round_shrinkage_one_then_learning_rate_witness :
    1 < (fit_shrinkage_schedule (1/2) (fun _ => false) 3).length ∧
      (fit_shrinkage_schedule (1/2) (fun _ => false) 3).getD 1 0
        = if (1 : ℕ) = 0 then 1 else (1/2 : ℚ) := by
  refine ⟨by simp [fit_shrinkage_schedule, fit_shrinkages], ?_⟩
  exact first_round_shrinkage_one_then_learning_rate (1/2) (fun _ => false) 3 1
    (by simp [fit_shrinkage_schedule, fit_shrinkages])

/-! ## Claims C1, C2, C3 -/

/-- Claim C1: for every fitted model, the regressor's `predict(X)`
(equivalently `_raw_predict`) returns, for each sample, exactly the sum over
all per-round `Predictor` objects in `predictors_` of that predictor's predict
value on the sample, starting from zero. -/
theorem predict_eq_sum_of_predictor_values {σ ι : Type}
    (predictors : List (σ → ℚ)) (X : ι → σ) (i : ι) :
    regressor_predict predictors X i = (predictors.map (fun p => p (X i))).sum ∧
      raw_predict predictors X i = (predictors.map (fun p => p (X i))).sum :=
  ⟨raw_predict_apply predictors X i, raw_predict_apply predictors X i⟩

/-- Claim C2, counterexample: with `max_no_improvement = 2`, `tol = None` and
recorded scores `[0, 1]`, the most recent score (1) is ≥ the best of the last
2 scores scaled by `(1 - tol)` (which is 1), yet `_should_stop` returns
`False` — it compares `scores[-max_no_improvement]` (the *oldest* score of
the window, here 0), not the current one. -/
theorem should_stop_counterexample :
    ¬(should_stop 2 none [0, 1] = true ↔ (1 : ℚ) ≥ max 0 1 * (1 - 0)) := by
  have h1 : should_stop 2 none [0, 1] = false := by
    norm_num [should_stop, List.foldl]
  have h2 : (1 : ℚ) ≥ max 0 1 * (1 - 0) := by norm_num
  simp [h1, h2]

/-- Claim C2 (amended): for every recorded score sequence of length at least
`max_no_improvement ≥ 1`, `_should_stop` returns `True` exactly when the
*oldest* of the last `max_no_improvement` scores (the score recorded
`max_no_improvement - 1` rounds before the current one) is greater than or
equal to the best of the last `max_no_improvement` scores scaled by
`(1 - tol)`, under the "higher is better" convention. -/
theorem should_stop_iff_oldest_ge_best_with_tol
    (m : ℕ) (tol : Option ℚ) (scores : List ℚ)
    (h1 : 1 ≤ m) (h2 : m ≤ scores.length) :
    should_stop m tol scores
      = decide ((scores.drop (scores.length - m)).headD 0
          ≥ ((scores.drop (scores.length - m)).foldl max
              ((scores.drop (scores.length - m)).headD 0)) * (1 - tol.getD 0)) := by
  have hlen : (scores.drop (scores.length - m)).length = m := by
    rw [List.length_drop]
    omega
  obtain ⟨c, rest, hw⟩ : ∃ c rest, scores.drop (scores.length - m) = c :: rest := by
    match hd : scores.drop (scores.length - m) with
    | [] => rw [hd] at hlen; simp at hlen; omega
    | c :: rest => exact ⟨c, rest, rfl⟩
  have hguard : ¬(scores.length = 0 ∨ (m ≠ 0 ∧ scores.length < m)) := by omega
  rw [should_stop, if_neg hguard, hw]
  simp [List.foldl, max_self]

theorem should_stop_iff_oldest_ge_best_with_tol_witness :
    should_stop 2 none [1, 0]
      = decide ((([(1 : ℚ), 0]).drop (([(1 : ℚ), 0]).length - 2)).headD 0
          ≥ ((([(1 : ℚ), 0]).drop (([(1 : ℚ), 0]).length - 2)).foldl max
              ((([(1 : ℚ), 0]).drop (([(1 : ℚ), 0]).length - 2)).headD 0))
            * (1 - (none : Option ℚ).getD 0)) :=
  should_stop_iff_oldest_ge_best_with_tol 2 none [1, 0] (by norm_num) (by norm_num)

/-- A configuration whose `max_bins` (1024) is outside [2, 256] and whose
`l2_regularization` (0) is non-positive; all parameters that
`_validate_parameters` actually checks are valid. -/
def oversizedBinsParams : GBMParams :=
  { loss := "least_squares", learning_rate := 1/10, max_iter := 100,
    max_leaf_nodes := 31, max_depth := none, min_samples_leaf := 20,
    l2_regularization := 0, max_bins := 1024, max_no_improvement := 5,
    validation_split := some (1/10), scoring := "neg_mean_squared_error",
    tol := 1/10000000 }

/-- Claim C3, counterexample: a configuration with `max_bins = 1024` (outside
[2, 256]) and non-positive `l2_regularization` passes `_validate_parameters`
— the eager validation run by `fit` before any binning — so `fit` does not
raise a validation error for it before binning/training work begins. -/
theorem validate_parameters_ignores_max_bins_and_l2 :
    validate_parameters regressorValidLosses oversizedBinsParams = true ∧
      ¬(2 ≤ oversizedBinsParams.max_bins ∧ oversizedBinsParams.max_bins ≤ 256) ∧
      oversizedBinsParams.l2_regularization ≤ 0 := by
  refine ⟨?_, by norm_num [oversizedBinsParams], by norm_num [oversizedBinsParams]⟩
  norm_num [validate_parameters, oversizedBinsParams, lossRegistry, regressorValidLosses]

/-- Claim C3 (amended): the eager validation performed by `fit` before any
binning (`_validate_parameters`) checks exactly the loss name,
`learning_rate > 0`, `max_iter ≥ 1`, `max_no_improvement ≥ 1`,
`validation_split > 0` (when set) and `tol > 0`; it does not inspect
`max_bins` or `l2_regularization` at all — those are rejected later, by the
binner once binning starts (`max_bins ∉ [2, 256]`, spec §4.1) and by
`TreeGrower` during training, respectively. -/
theorem validate_parameters_characterization (p : GBMParams) :
    validate_parameters regressorValidLosses p = true ↔
      (p.loss ∈ lossRegistry ∧ p.loss ∈ regressorValidLosses ∧
       0 < p.learning_rate ∧ 1 ≤ p.max_iter ∧ 1 ≤ p.max_no_improvement ∧
       (∀ v, p.validation_split = some v → 0 < v) ∧ 0 < p.tol) := by
  unfold validate_parameters
  cases hv : p.validation_split <;> simp [hv, and_assoc]

/-! ## `_update_y_pred` (lines 465-484)

    for leaf_idx in prange(len(leaves_data)):
        leaf_value, sample_indices = leaves_data[leaf_idx]
        for sample_idx in sample_indices:
            y_pred[sample_idx] += leaf_value

`leaves_data` is the list of `(leaf.value, leaf.sample_indices)` pairs of the
round's finalized leaves; the prediction buffer is a function from sample
index to value.  The `prange` parallel loop is modelled as the sequential
fold (the iterations touch disjoint buffer slots under the partition
invariant, so the order is irrelevant). -/

def update_y_pred (leaves_data : List (ℚ × List ℕ)) (y_pred : ℕ → ℚ) : ℕ → ℚ :=
  leaves_data.foldl
    (fun y ld => ld.2.foldl (fun y i => Function.update y i (y i + ld.1)) y) y_pred

theorem inner_update_apply (v : ℚ) :
    ∀ (idx : List ℕ) (y : ℕ → ℚ) (j : ℕ), idx.Nodup →
      (idx.foldl (fun y i => Function.update y i (y i + v)) y) j
        = if j ∈ idx then y j + v else y j
  | [], y, j, _ => by simp
  | i :: idx, y, j, hnd => by
    simp only [List.foldl_cons]
    rw [inner_update_apply v idx _ j (List.Nodup.of_cons hnd)]
    rcases eq_or_ne j i with rfl | hji
    · have hj : j ∉ idx := (List.nodup_cons.mp hnd).1
      simp [hj, Function.update_apply]
    · by_cases hj : j ∈ idx <;>
        simp [hj, hji, Function.update_apply, List.mem_cons]

theorem update_y_pred_not_mem :
    ∀ (L : List (ℚ × List ℕ)) (y : ℕ → ℚ) (j : ℕ),
      (∀ ld ∈ L, ld.2.Nodup) → (∀ ld ∈ L, j ∉ ld.2) →
      update_y_pred L y j = y j
  | [], _, _, _, _ => rfl
  | ld :: L, y, j, hnd, hj => by
    have hcons : update_y_pred (ld :: L) y
        = update_y_pred L (ld.2.foldl (fun y i => Function.update y i (y i + ld.1)) y) := rfl
    rw [hcons,
      update_y_pred_not_mem L _ j (fun l hl => hnd l (List.mem_cons_of_mem _ hl))
        (fun l hl => hj l (List.mem_cons_of_mem _ hl)),
      inner_update_apply _ _ _ _ (hnd ld (List.mem_cons_self _ _))]
    simp [hj ld (List.mem_cons_self _ _)]

theorem update_y_pred_owner :
    ∀ (L : List (ℚ × List ℕ)) (y : ℕ → ℚ),
      (∀ ld ∈ L, ld.2.Nodup) →
      L.Pairwise (fun a b => ∀ i ∈ a.2, i ∉ b.2) →
      ∀ ld ∈ L, ∀ i ∈ ld.2, update_y_pred L y i = y i + ld.1
  | [], _, _, _ => by simp
  | ld :: L, y, hnd, hdisj => by
    intro ld' hld' i hi
    have hcons : update_y_pred (ld :: L) y
        = update_y_pred L (ld.2.foldl (fun y i => Function.update y i (y i + ld.1)) y) := rfl
    rcases List.mem_cons.mp hld' with rfl | hmem
    · rw [hcons,
        update_y_pred_not_mem L _ i (fun l hl => hnd l (List.mem_cons_of_mem _ hl))
          (fun l hl => (List.pairwise_cons.mp hdisj).1 l hl i hi),
        inner_update_apply _ _ _ _ (hnd ld' (List.mem_cons_self _ _))]
      simp [hi]
    · rw [hcons,
        update_y_pred_owner L _ (fun l hl => hnd l (List.mem_cons_of_mem _ hl))
          (List.pairwise_cons.mp hdisj).2 ld' hmem i hi,
        inner_update_apply _ _ _ _ (hnd ld (List.mem_cons_self _ _))]
      have hin : i ∉ ld.2 := fun hibad => (List.pairwise_cons.mp hdisj).1 ld' hmem i hibad hi
      simp [hin]

/-- Claim C4: for every list of finalized leaves whose sample-index subsets
partition the training index set `{0, ..., n-1}` (no overlap, no omission)
and every prediction buffer, `_update_y_pred` adds to each entry `y_pred[i]`
exactly the value of the unique leaf owning sample `i`, and leaves every
entry not owned by any listed leaf unchanged. -/
theorem update_y_pred_adds_unique_owner_value
    (L : List (ℚ × List ℕ)) (y : ℕ → ℚ) (n : ℕ)
    (hnd : ∀ ld ∈ L, ld.2.Nodup)
    (hdisj : L.Pairwise (fun a b => ∀ i ∈ a.2, i ∉ b.2))
    (_hcov : ∀ i < n, ∃ ld ∈ L, i ∈ ld.2) :
    (∀ ld ∈ L, ∀ i ∈ ld.2, update_y_pred L y i = y i + ld.1) ∧
      (∀ i, (∀ ld ∈ L, i ∉ ld.2) → update_y_pred L y i = y i) :=
  ⟨update_y_pred_owner L y hnd hdisj,
   fun i hi => update_y_pred_not_mem L y i hnd hi⟩

theorem update_y_pred_adds_unique_owner_value_witness :
    update_y_pred [((2 : ℚ), [0]), (3, [1, 2])] (fun _ => 5) 1 = 5 + 3 ∧
      update_y_pred [((2 : ℚ), [0]), (3, [1, 2])] (fun _ => 5) 7 = 5 := by
  have h := update_y_pred_adds_unique_owner_value
    [((2 : ℚ), [0]), (3, [1, 2])] (fun _ => 5) 3
    (by decide) (by decide) (by decide)
  exact ⟨h.1 (3, [1, 2]) (by norm_num) 1 (by decide), h.2 7 (by decide)⟩

/-! ## Quantile binner — modelled from the spec

`pygbm/binning.py` is not among the available sources (only its tests and its
callers are), so the binner is modelled from spec §4.1, per column. -/

/-- Modelled from the spec: the "sorted distinct values" of a column (§4.1),
and the "deduplicated and sorted" post-processing of the quantile thresholds.
Computed as a sort followed by removal of adjacent duplicates. -/
def sortedDistinct (xs : List ℚ) : List ℚ :=
  (List.insertionSort (· ≤ ·) xs).destutter (· < ·)

/-- Modelled from the spec: "take those percentile values" (§4.1) — the
percentile of a sorted column at `p ∈ [0, 100]`, with the linear
interpolation the reference binner uses: rank `r = p (n-1) / 100`,
interpolated between the floor-rank element and its successor (the successor
index defaults back to the floor element at the upper boundary). -/
def percentile (s : List ℚ) (p : ℚ) : ℚ :=
  let r : ℚ := p * ((s.length : ℚ) - 1) / 100
  let i : ℕ := (⌊r⌋).toNat
  let a : ℚ := s.getD i 0
  let b : ℚ := s.getD (i + 1) a
  a + (r - (i : ℚ)) * (b - a)

/-- Modelled from the spec (§4.1): per-column `find_bins`.  If the number of
distinct values is at most `max_bins`, the thresholds are "exactly the sorted
distinct values minus the last one"; otherwise they are the values of an
evenly spaced percentile grid of size `max_bins - 1`, deduplicated and
sorted.  The subsampling branch (only entered for reference sets over ~200k
rows) is not modelled. -/
def find_bins_col (xs : List ℚ) (max_bins : ℕ) : List ℚ :=
  let d := sortedDistinct xs
  if d.length ≤ max_bins then d.dropLast
  else
    let s := List.insertionSort (· ≤ ·) xs
    sortedDistinct ((List.range (max_bins - 1)).map
      (fun k : ℕ => percentile s (100 * ((k : ℚ) + 1) / (max_bins : ℚ))))

/-- Modelled from the spec (§4.1): `transform` maps a value to "the number of
thresholds strictly less than the value". -/
def map_to_bin (thresholds : List ℚ) (v : ℚ) : ℕ :=
  thresholds.countP (fun t => decide (t < v))

/-- Modelled from the spec (§4.1): columnwise `transform`. -/
def map_to_bins_col (thresholds : List ℚ) (xs : List ℚ) : List ℕ :=
  xs.map (map_to_bin thresholds)

/-- Modelled from the spec (§4.1): `fit_transform` is the composition of
`fit` (learning the thresholds) and `transform` on the same column. -/
def fit_transform_col (xs : List ℚ) (max_bins : ℕ) : List ℕ :=
  map_to_bins_col (find_bins_col xs max_bins) xs

/-- Modelled from the spec (§3): a feature with `t` thresholds has `t + 1`
bins ("an ordered sequence of up to 255 real-valued cut points ... producing
at most 256 bins"). -/
def n_bins_col (xs : List ℚ) (max_bins : ℕ) : ℕ :=
  (find_bins_col xs max_bins).length + 1

theorem sortedDistinct_sorted (xs : List ℚ) : (sortedDistinct xs).Sorted (· < ·) :=
  List.chain'_iff_pairwise.mp (List.destutter_is_chain' _ _)

theorem sortedDistinct_nodup (xs : List ℚ) : (sortedDistinct xs).Nodup :=
  (sortedDistinct_sorted xs).imp ne_of_lt

theorem mem_destutter'_of_sorted :
    ∀ (l : List ℚ) (a : ℚ), (a :: l).Sorted (· ≤ ·) →
      ∀ v ∈ a :: l, v ∈ List.destutter' (· < ·) a l
  | [], a, _, v, hv => by simpa using hv
  | b :: l, a, hs, v, hv => by
    have hab : a ≤ b := (List.pairwise_cons.mp hs).1 b (List.mem_cons_self _ _)
    have hs' : (b :: l).Sorted (· ≤ ·) := (List.pairwise_cons.mp hs).2
    by_cases h : a < b
    · rw [List.destutter'_cons_pos _ h]
      rcases List.mem_cons.mp hv with rfl | hv'
      · exact List.mem_cons_self _ _
      · exact List.mem_cons_of_mem _ (mem_destutter'_of_sorted l b hs' v hv')
    · have hba : b = a := le_antisymm (not_lt.mp h) hab
      rw [List.destutter'_cons_neg _ h]
      have hsl : (a :: l).Sorted (· ≤ ·) := by
        rw [List.sorted_cons] at hs hs' ⊢
        exact ⟨fun c hc => hs.1 c (List.mem_cons_of_mem _ hc), hs'.2⟩
      have hv'' : v ∈ a :: l := by
        rcases List.mem_cons.mp hv with rfl | hv'
        · exact List.mem_cons_self _ _
        · rcases List.mem_cons.mp hv' with rfl | hv''
          · rw [hba]; exact List.mem_cons_self _ _
          · exact List.mem_cons_of_mem _ hv''
      exact mem_destutter'_of_sorted l a hsl v hv''

theorem mem_sortedDistinct {xs : List ℚ} {v : ℚ} : v ∈ sortedDistinct xs ↔ v ∈ xs := by
  constructor
  · intro hv
    have h1 : v ∈ List.insertionSort (· ≤ ·) xs :=
      (List.destutter_sublist _ _).mem hv
    exact (List.mem_insertionSort _).mp h1
  · intro hv
    have h1 : v ∈ List.insertionSort (· ≤ ·) xs := (List.mem_insertionSort _).mpr hv
    have hsort := List.sorted_insertionSort (· ≤ ·) xs
    unfold sortedDistinct
    match hS : List.insertionSort (· ≤ ·) xs with
    | [] => rw [hS] at h1; simp at h1
    | a :: l =>
      rw [hS] at h1 hsort
      exact mem_destutter'_of_sorted l a hsort v h1

theorem sortedDistinct_codes (ns : List ℕ) (m : ℕ)
    (h1 : ∀ j ∈ ns, j < m) (h2 : ∀ j < m, j ∈ ns) :
    sortedDistinct (ns.map (Nat.cast : ℕ → ℚ)) = (List.range m).map (Nat.cast : ℕ → ℚ) := by
  have hinj : Function.Injective (Nat.cast : ℕ → ℚ) := Nat.cast_injective
  have hnd1 := sortedDistinct_nodup (ns.map (Nat.cast : ℕ → ℚ))
  have hnd2 : ((List.range m).map (Nat.cast : ℕ → ℚ)).Nodup := (List.nodup_range m).map hinj
  have hmem : ∀ a, a ∈ sortedDistinct (ns.map (Nat.cast : ℕ → ℚ))
      ↔ a ∈ (List.range m).map (Nat.cast : ℕ → ℚ) := by
    intro a
    rw [mem_sortedDistinct]
    simp only [List.mem_map, List.mem_range]
    constructor
    · rintro ⟨j, hj, rfl⟩; exact ⟨j, h1 j hj, rfl⟩
    · rintro ⟨j, hj, rfl⟩; exact ⟨j, h2 j hj, rfl⟩
  have hperm := (List.perm_ext_iff_of_nodup hnd1 hnd2).mpr hmem
  refine List.eq_of_perm_of_sorted hperm ((sortedDistinct_sorted _).imp le_of_lt) ?_
  rw [List.Sorted, List.pairwise_map]
  exact (List.pairwise_lt_range m).imp (fun h => le_of_lt (by exact_mod_cast h))

theorem countP_range_cast_lt (K j : ℕ) :
    (List.range K).countP (fun i : ℕ => decide ((i : ℚ) < (j : ℚ))) = min j K := by
  induction K with
  | zero => simp
  | succ K ih =>
    rw [List.range_succ, List.countP_append _ _ _, ih]
    by_cases h : K < j
    · have hc : ((K : ℚ) < (j : ℚ)) := by exact_mod_cast h
      have h1 : List.countP (fun i : ℕ => decide ((i : ℚ) < (j : ℚ))) [K] = 1 := by
        simp [List.countP_cons]; omega
      rw [h1]
      omega
    · have hc : ¬((K : ℚ) < (j : ℚ)) := by exact_mod_cast h
      have h0 : List.countP (fun i : ℕ => decide ((i : ℚ) < (j : ℚ))) [K] = 0 := by
        simp [List.countP_cons]; omega
      rw [h0]
      omega

theorem dropLast_range_map_cast (m : ℕ) :
    ((List.range m).map (Nat.cast : ℕ → ℚ)).dropLast
      = (List.range (m - 1)).map (Nat.cast : ℕ → ℚ) := by
  cases m with
  | zero => simp
  | succ m =>
    rw [List.range_succ, List.map_append]
    simp [List.dropLast_concat]

/-- Claim C6 (amended): for every integer-coded column whose distinct codes
are exactly the gapless range `{0, ..., m-1}` and every `max_bins ≥ m`,
applying `fit_transform` again reproduces exactly the same codes unchanged.
The gapless hypothesis is necessary: the quantile path can leave an interior
bin empty, emitting a column with a gapped code set, and rebinning such a
column renumbers its codes (see the counterexample below). -/
theorem fit_transform_idempotent_on_binned_codes
    (ns : List ℕ) (m max_bins : ℕ)
    (h1 : ∀ j ∈ ns, j < m) (h2 : ∀ j < m, j ∈ ns) (hm : m ≤ max_bins) :
    fit_transform_col (ns.map (Nat.cast : ℕ → ℚ)) max_bins = ns := by
  have hsd := sortedDistinct_codes ns m h1 h2
  have hbranch : find_bins_col (ns.map (Nat.cast : ℕ → ℚ)) max_bins
      = (List.range (m - 1)).map (Nat.cast : ℕ → ℚ) := by
    simp only [find_bins_col, hsd]
    rw [if_pos (by simpa using hm), dropLast_range_map_cast]
  unfold fit_transform_col map_to_bins_col
  rw [hbranch, List.map_map]
  have hcongr : ∀ j ∈ ns,
      (map_to_bin ((List.range (m - 1)).map (Nat.cast : ℕ → ℚ)) ∘ (Nat.cast : ℕ → ℚ)) j
        = id j := by
    intro j hj
    have hjm := h1 j hj
    simp only [Function.comp_apply, id_eq, map_to_bin]
    rw [List.countP_map]
    rw [show ((fun t => decide (t < (j : ℚ))) ∘ (Nat.cast : ℕ → ℚ))
        = (fun i : ℕ => decide ((i : ℚ) < (j : ℚ))) from rfl]
    rw [countP_range_cast_lt]
    omega
  rw [List.map_congr_left hcongr, List.map_id]

theorem fit_transform_idempotent_on_binned_codes_witness :
    fit_transform_col (([1, 0] : List ℕ).map (Nat.cast : ℕ → ℚ)) 2 = [1, 0] :=
  fit_transform_idempotent_on_binned_codes [1, 0] 2 2
    (by decide) (by decide) (by decide)

theorem le_percentile (s : List ℚ) (v : ℚ) (hne : s ≠ [])
    (hlb : ∀ w ∈ s, v ≤ w) (p : ℚ) (hp0 : 0 ≤ p) (hp1 : p < 100) :
    v ≤ percentile s p := by
  have hn : 1 ≤ s.length := List.length_pos.mpr hne
  simp only [percentile]
  set r : ℚ := p * ((s.length : ℚ) - 1) / 100 with hr_def
  set i : ℕ := (⌊r⌋).toNat with hi_def
  have hn1 : (1 : ℚ) ≤ (s.length : ℚ) := by exact_mod_cast hn
  have hr0 : 0 ≤ r := by
    rw [hr_def]
    apply div_nonneg _ (by norm_num)
    exact mul_nonneg hp0 (by linarith)
  have hrle : r ≤ (s.length : ℚ) - 1 := by
    rw [hr_def, div_le_iff₀ (by norm_num : (0 : ℚ) < 100)]
    nlinarith
  have hicast : ((i : ℕ) : ℚ) = ((⌊r⌋ : ℤ) : ℚ) := by
    exact_mod_cast congrArg (Int.cast : ℤ → ℚ)
      (Int.toNat_of_nonneg (Int.floor_nonneg.mpr hr0))
  have hi_lt : i < s.length := by
    have h1 : (⌊r⌋ : ℚ) ≤ r := Int.floor_le r
    have h2 : ((i : ℕ) : ℚ) < (s.length : ℚ) := by rw [hicast]; linarith
    exact_mod_cast h2
  have hva : v ≤ s.getD i 0 := by
    refine hlb _ ?_
    rw [List.getD_eq_getElem s 0 hi_lt]
    exact List.getElem_mem hi_lt
  have hvb : v ≤ s.getD (i + 1) (s.getD i 0) := by
    by_cases hib : i + 1 < s.length
    · refine hlb _ ?_
      rw [List.getD_eq_getElem s _ hib]
      exact List.getElem_mem hib
    · rw [List.getD_eq_default _ _ (by omega : s.length ≤ i + 1)]
      exact hva
  have ht0 : 0 ≤ r - (i : ℚ) := by
    rw [hicast]
    exact sub_nonneg.mpr (Int.floor_le r)
  have ht1 : r - (i : ℚ) ≤ 1 := by
    rw [hicast]
    have := Int.lt_floor_add_one r
    linarith
  nlinarith [mul_nonneg ht0 (sub_nonneg.mpr hvb),
    mul_nonneg (sub_nonneg.mpr ht1) (sub_nonneg.mpr hva)]

theorem min_le_find_bins (xs : List ℚ) (mb : ℕ) (v : ℚ)
    (hmem : v ∈ xs) (hlb : ∀ w ∈ xs, v ≤ w) :
    ∀ t ∈ find_bins_col xs mb, v ≤ t := by
  intro t ht
  simp only [find_bins_col] at ht
  by_cases hid : (sortedDistinct xs).length ≤ mb
  · rw [if_pos hid] at ht
    have hsd : t ∈ sortedDistinct xs := (List.dropLast_sublist _).mem ht
    exact hlb t (mem_sortedDistinct.mp hsd)
  · rw [if_neg hid] at ht
    obtain ⟨k, hk, rfl⟩ := List.mem_map.mp (mem_sortedDistinct.mp ht)
    have hkr := List.mem_range.mp hk
    have hmb2 : 2 ≤ mb := by omega
    have hmbq : (0 : ℚ) < (mb : ℚ) := by exact_mod_cast (by omega : 0 < mb)
    apply le_percentile
    · intro hnil
      have h0 : xs.length = 0 := by
        rw [← List.length_insertionSort (· ≤ ·) xs, hnil]
        rfl
      rw [List.length_eq_zero] at h0
      rw [h0] at hmem
      simp at hmem
    · exact fun w hw => hlb w ((List.mem_insertionSort _).mp hw)
    · positivity
    · rw [div_lt_iff₀ hmbq]
      have hkq : ((k : ℚ) + 1) < (mb : ℚ) := by exact_mod_cast (by omega : k + 1 < mb)
      nlinarith

/-- A column whose maximum value (10) is heavily duplicated: the 50th
percentile of `[0, 1, 10, 10, 10]` is 10 itself, so the single learned
threshold equals the column maximum. -/
def dupTopColumn : List ℚ := [0, 1, 10, 10, 10]

/-- Claim C7, counterexample: on the column `[0, 1, 10, 10, 10]` with
`max_bins = 2` (quantile path: 3 distinct values > 2), the learned threshold
list is `[10]`, so `n_bins = 2`, yet the column maximum 10 is mapped to bin
`0`, not to the last valid bin `n_bins - 1 = 1`. -/
theorem max_to_last_bin_counterexample :
    ((10 : ℚ) ∈ dupTopColumn ∧ ∀ w ∈ dupTopColumn, w ≤ 10) ∧
      map_to_bin (find_bins_col dupTopColumn 2) 10 = 0 ∧
      n_bins_col dupTopColumn 2 - 1 = 1 := by
  have hfb : find_bins_col dupTopColumn 2 = [10] := by
    norm_num [dupTopColumn, find_bins_col, sortedDistinct, percentile,
      List.insertionSort, List.orderedInsert, List.destutter, List.destutter',
      List.range_succ, show Int.toNat 2 = 2 from rfl]
  refine ⟨⟨by norm_num [dupTopColumn], by norm_num [dupTopColumn]⟩, ?_, ?_⟩
  · rw [hfb]
    norm_num [map_to_bin, List.countP_cons]
  · rw [n_bins_col, hfb]
    rfl

/-- Claim C7 (amended): for every column, `transform` after `fit` on the same
data maps the column minimum to bin code 0; it maps the column maximum to bin
code `n_bins - 1` (the last valid bin) whenever every learned threshold is
strictly below the maximum — which always holds on the identity path (number
of distinct values at most `max_bins`), but can fail on the quantile path
when repeated maximum values pull a percentile threshold up to the maximum
itself. -/
theorem transform_maps_min_to_zero_max_to_last
    (xs : List ℚ) (mb : ℕ) (vmin vmax : ℚ)
    (hmin_mem : vmin ∈ xs) (hmin : ∀ w ∈ xs, vmin ≤ w)
    (hmax_mem : vmax ∈ xs) (hmax : ∀ w ∈ xs, w ≤ vmax) :
    map_to_bin (find_bins_col xs mb) vmin = 0 ∧
      ((∀ t ∈ find_bins_col xs mb, t < vmax) →
        map_to_bin (find_bins_col xs mb) vmax = n_bins_col xs mb - 1) ∧
      ((sortedDistinct xs).length ≤ mb →
        map_to_bin (find_bins_col xs mb) vmax = n_bins_col xs mb - 1) := by
  have hlast : (∀ t ∈ find_bins_col xs mb, t < vmax) →
      map_to_bin (find_bins_col xs mb) vmax = n_bins_col xs mb - 1 := by
    intro h
    rw [map_to_bin, n_bins_col, Nat.add_sub_cancel]
    exact List.countP_eq_length.mpr (fun t ht => by simpa using h t ht)
  refine ⟨?_, hlast, ?_⟩
  · rw [map_to_bin]
    apply List.countP_eq_zero.mpr
    intro t ht
    simp only [decide_eq_true_eq, not_lt]
    exact min_le_find_bins xs mb vmin hmin_mem hmin t ht
  · intro hid
    apply hlast
    have hfb : find_bins_col xs mb = (sortedDistinct xs).dropLast := by
      simp only [find_bins_col]
      rw [if_pos hid]
    rw [hfb]
    intro t ht
    have hvmax_sd : vmax ∈ sortedDistinct xs := mem_sortedDistinct.mpr hmax_mem
    have hne : sortedDistinct xs ≠ [] := List.ne_nil_of_mem hvmax_sd
    have hsplit := List.dropLast_append_getLast hne
    have hpw : ((sortedDistinct xs).dropLast
        ++ [(sortedDistinct xs).getLast hne]).Pairwise (· < ·) := by
      rw [hsplit]
      exact sortedDistinct_sorted xs
    have h1 : t < (sortedDistinct xs).getLast hne :=
      (List.pairwise_append.mp hpw).2.2 t ht _ (List.mem_singleton_self _)
    have h2 : (sortedDistinct xs).getLast hne ≤ vmax :=
      hmax _ (mem_sortedDistinct.mp (List.getLast_mem hne))
    linarith

theorem transform_maps_min_to_zero_max_to_last_witness :
    map_to_bin (find_bins_col [(0 : ℚ), 1] 2) 0 = 0 ∧
      map_to_bin (find_bins_col [(0 : ℚ), 1] 2) 1 = n_bins_col [(0 : ℚ), 1] 2 - 1 := by
  have h := transform_maps_min_to_zero_max_to_last [(0 : ℚ), 1] 2 0 1
    (by norm_num) (by intro w hw; fin_cases hw <;> norm_num)
    (by norm_num) (by intro w hw; fin_cases hw <;> norm_num)
  refine ⟨h.1, h.2.2 ?_⟩
  norm_num [sortedDistinct, List.insertionSort, List.orderedInsert,
    List.destutter, List.destutter']

/-- The concrete input of `test_find_bins_regular_data`:
`np.linspace(0, 10, 1000)` as one column; point `i` is `10 i / 999`. -/
def linspaceData : List ℚ := (List.range 1000).map (fun i : ℕ => 10 * (i : ℚ) / 999)

theorem linspaceData_pairwise : linspaceData.Pairwise (· < ·) := by
  rw [linspaceData, List.pairwise_map]
  refine (List.pairwise_lt_range 1000).imp ?_
  intro a b hab
  have hq : (a : ℚ) < (b : ℚ) := by exact_mod_cast hab
  gcongr

theorem linspaceData_sorted_le : linspaceData.Sorted (· ≤ ·) :=
  linspaceData_pairwise.imp le_of_lt

theorem sortedDistinct_linspace : sortedDistinct linspaceData = linspaceData := by
  unfold sortedDistinct
  rw [List.Sorted.insertionSort_eq linspaceData_sorted_le,
    List.destutter_of_chain' _ _ (List.chain'_iff_pairwise.mpr linspaceData_pairwise)]

theorem linspaceData_length : linspaceData.length = 1000 := by
  rw [linspaceData, List.length_map, List.length_range]

theorem linspace_getD (i : ℕ) (hi : i < 1000) (d : ℚ) :
    linspaceData.getD i d = 10 * (i : ℚ) / 999 := by
  rw [linspaceData, List.getD_eq_getElem?_getD, List.getElem?_map, List.getElem?_range hi]
  rfl

theorem percentile_linspace (p : ℚ) (hp0 : 0 ≤ p) (hp1 : p < 100) :
    percentile linspaceData p = p / 10 := by
  simp only [percentile, linspaceData_length]
  rw [show (((1000 : ℕ) : ℚ) - 1) = 999 from by norm_num]
  set r : ℚ := p * 999 / 100 with hr_def
  have hr0 : 0 ≤ r := by rw [hr_def]; positivity
  have hrlt : r < 999 := by
    rw [hr_def, div_lt_iff₀ (by norm_num : (0 : ℚ) < 100)]
    nlinarith
  set i : ℕ := (⌊r⌋).toNat with hi_def
  have hicast : ((i : ℕ) : ℚ) = ((⌊r⌋ : ℤ) : ℚ) := by
    exact_mod_cast congrArg (Int.cast : ℤ → ℚ)
      (Int.toNat_of_nonneg (Int.floor_nonneg.mpr hr0))
  have hifl : (⌊r⌋ : ℤ) < 999 := Int.floor_lt.mpr (by exact_mod_cast hrlt)
  have hi_lt : i < 999 := by omega
  rw [linspace_getD i (by omega), linspace_getD (i + 1) (by omega)]
  rw [show (((i + 1 : ℕ)) : ℚ) = (i : ℚ) + 1 from by push_cast; ring]
  rw [hr_def]
  ring

/-- Claim C9: on 1000 evenly spaced points over [0, 10] as one feature
column, `find_bins` with `max_bins = 10` returns exactly the 9 thresholds
`[1, 2, 3, 4, 5, 6, 7, 8, 9]`, and with `max_bins = 5` exactly
`[2, 4, 6, 8]`. -/
theorem find_bins_linspace_concrete :
    find_bins_col linspaceData 10 = [1, 2, 3, 4, 5, 6, 7, 8, 9] ∧
      find_bins_col linspaceData 5 = [2, 4, 6, 8] := by
  have hlen : (sortedDistinct linspaceData).length = 1000 := by
    rw [sortedDistinct_linspace, linspaceData_length]
  have hsort : List.insertionSort (· ≤ ·) linspaceData = linspaceData :=
    List.Sorted.insertionSort_eq linspaceData_sorted_le
  constructor
  · simp only [find_bins_col, hlen, hsort]
    rw [if_neg (by norm_num)]
    have heval : ∀ k ∈ List.range (10 - 1),
        percentile linspaceData (100 * ((k : ℚ) + 1) / ((10 : ℕ) : ℚ)) = (k : ℚ) + 1 := by
      intro k hk
      have hk9 : (k : ℚ) ≤ 8 := by
        exact_mod_cast Nat.lt_succ_iff.mp (List.mem_range.mp hk)
      rw [percentile_linspace _ (by positivity) (by push_cast; linarith)]
      push_cast
      ring
    rw [List.map_congr_left heval,
      show List.range (10 - 1) = [0, 1, 2, 3, 4, 5, 6, 7, 8] from by rfl]
    norm_num [sortedDistinct, List.insertionSort, List.orderedInsert,
      List.destutter, List.destutter']
  · simp only [find_bins_col, hlen, hsort]
    rw [if_neg (by norm_num)]
    have heval : ∀ k ∈ List.range (5 - 1),
        percentile linspaceData (100 * ((k : ℚ) + 1) / ((5 : ℕ) : ℚ))
          = 2 * ((k : ℚ) + 1) := by
      intro k hk
      have hk4 : (k : ℚ) ≤ 3 := by
        exact_mod_cast Nat.lt_succ_iff.mp (List.mem_range.mp hk)
      rw [percentile_linspace _ (by positivity) (by push_cast; linarith)]
      push_cast
      ring
    rw [List.map_congr_left heval,
      show List.range (5 - 1) = [0, 1, 2, 3] from by rfl]
    norm_num [sortedDistinct, List.insertionSort, List.orderedInsert,
      List.destutter, List.destutter']

/-! ## Predictor — modelled from the spec

`pygbm/predictor.py` is not among the available sources; the compiled tree
and its two entry points are modelled from spec §3 and §4.5 (the spec's flat
node array is rendered as the tree it encodes; samples are functions from
feature index to value). -/

/-- Modelled from the spec (§3): a compiled tree node is either an internal
node {feature index, bin threshold index, real threshold, children} or a
leaf {value}. -/
inductive PredTree : Type where
  | leaf (value : ℚ)
  | node (feature : ℕ) (bin_threshold : ℕ) (threshold : ℚ)
      (left : PredTree) (right : PredTree)

/-- Modelled from the spec (§4.5): `Predictor.predict` walks from the root,
comparing the sample's raw feature value to the node's *real* threshold and
descending left (≤) or right (>); a leaf returns its value. -/
def predict_tree : PredTree → (ℕ → ℚ) → ℚ
  | .leaf v, _ => v
  | .node f _ thr l r, x =>
    if x f ≤ thr then predict_tree l x else predict_tree r x

/-- Modelled from the spec (§4.5): `Predictor.predict_binned`, the identical
traversal comparing the sample's integer bin code to the node's bin-index
threshold. -/
def predict_binned_tree : PredTree → (ℕ → ℕ) → ℚ
  | .leaf v, _ => v
  | .node f bt _ l r, xb =>
    if xb f ≤ bt then predict_binned_tree l xb else predict_binned_tree r xb

/-- Bin-code a raw sample featurewise (spec §4.1). -/
def bin_sample (B : ℕ → List ℚ) (x : ℕ → ℚ) : ℕ → ℕ :=
  fun f => map_to_bin (B f) (x f)

/-- A compiled tree is wellformed for the per-feature threshold table `B`
when every internal node's real threshold is exactly the bin boundary value
denoted by its bin-index threshold (spec §4.5: the real threshold is "the
bin boundary value, not the bin index"). -/
inductive WFTree (B : ℕ → List ℚ) : PredTree → Prop where
  | leaf (v : ℚ) : WFTree B (.leaf v)
  | node {f bt : ℕ} {thr : ℚ} {l r : PredTree} :
      bt < (B f).length → thr = (B f).getD bt 0 →
      WFTree B l → WFTree B r → WFTree B (.node f bt thr l r)

theorem map_to_bin_le_iff :
    ∀ (ts : List ℚ), ts.Sorted (· < ·) → ∀ (k : ℕ), k < ts.length → ∀ (v : ℚ),
      (map_to_bin ts v ≤ k ↔ v ≤ ts.getD k 0)
  | [], _, k, hk, v => by simp at hk
  | t :: ts, hs, k, hk, v => by
    have hts : ∀ u ∈ ts, t < u := (List.pairwise_cons.mp hs).1
    have hs' : ts.Sorted (· < ·) := (List.pairwise_cons.mp hs).2
    match k with
    | 0 =>
      simp only [map_to_bin, List.countP_cons, List.getD_cons_zero]
      constructor
      · intro h
        by_contra hvt
        simp [not_le.mp hvt] at h
      · intro hvt
        have h0 : List.countP (fun u => decide (u < v)) ts = 0 :=
          List.countP_eq_zero.mpr (fun u hu => by
            simp only [decide_eq_true_eq, not_lt]
            linarith [hts u hu])
        simp [h0, not_lt.mpr hvt]
    | k + 1 =>
      have hk' : k < ts.length := by simpa using hk
      simp only [map_to_bin, List.countP_cons, List.getD_cons_succ]
      by_cases htv : t < v
      · have h1 : (if decide (t < v) = true then 1 else 0) = 1 := by simp [htv]
        rw [h1, Nat.add_le_add_iff_right]
        have hiff := map_to_bin_le_iff ts hs' k hk' v
        simpa [map_to_bin] using hiff
      · have hvt : v ≤ t := not_lt.mp htv
        have h0 : List.countP (fun u => decide (u < v)) ts = 0 :=
          List.countP_eq_zero.mpr (fun u hu => by
            simp only [decide_eq_true_eq, not_lt]
            linarith [hts u hu])
        have hmem : ts.getD k 0 ∈ ts := by
          rw [List.getD_eq_getElem ts 0 hk']
          exact List.getElem_mem hk'
        have hrhs : v ≤ ts.getD k 0 := le_of_lt (lt_of_le_of_lt hvt (hts _ hmem))
        rw [List.getD_eq_getElem?_getD] at hrhs
        simp [h0, htv, hrhs]

theorem predict_tree_eq_binned (B : ℕ → List ℚ) (hB : ∀ f, (B f).Sorted (· < ·)) :
    ∀ (t : PredTree), WFTree B t → ∀ (x : ℕ → ℚ),
      predict_tree t x = predict_binned_tree t (bin_sample B x)
  | .leaf _, _, _ => rfl
  | .node f bt thr l r, hwf, x => by
    cases hwf with
    | node hbt hthr hl hr =>
      simp only [predict_tree, predict_binned_tree, bin_sample]
      have hiff : (map_to_bin (B f) (x f) ≤ bt) ↔ (x f ≤ thr) := by
        rw [hthr]
        exact map_to_bin_le_iff (B f) (hB f) bt hbt (x f)
      by_cases hc : x f ≤ thr
      · rw [if_pos hc, if_pos (hiff.mpr hc)]
        exact predict_tree_eq_binned B hB l hl x
      · rw [if_neg hc, if_neg (fun hcc => hc (hiff.mp hcc))]
        exact predict_tree_eq_binned B hB r hr x

/-- Claim C5: for every trained tree ensemble (each compiled tree wellformed
for the learned per-feature thresholds) and every sample, predicting on the
raw data (`predict` via `_raw_predict`, real thresholds) and predicting on
the corresponding bin-coded data (`predict_binned` via `_predict_binned`,
integer bin-index thresholds) return identical values. -/
theorem raw_predict_eq_predict_binned_on_binned_data {ι : Type}
    (B : ℕ → List ℚ) (hB : ∀ f, (B f).Sorted (· < ·))
    (trees : List PredTree) (hwf : ∀ t ∈ trees, WFTree B t)
    (X : ι → ℕ → ℚ) (i : ι) :
    raw_predict (trees.map (fun t x => predict_tree t x)) X i
      = predict_binned_ens (trees.map (fun t xb => predict_binned_tree t xb))
          (fun j => bin_sample B (X j)) i := by
  rw [raw_predict_apply, predict_binned_ens_apply, List.map_map, List.map_map]
  congr 1
  apply List.map_congr_left
  intro t ht
  exact predict_tree_eq_binned B hB t (hwf t ht) (X i)

theorem raw_predict_eq_predict_binned_on_binned_data_witness :
    raw_predict
        ([PredTree.node 0 0 1 (.leaf 10) (.leaf 20)].map (fun t x => predict_tree t x))
        (fun _ : Unit => fun _ : ℕ => (2 : ℚ)) ()
      = predict_binned_ens
          ([PredTree.node 0 0 1 (.leaf 10) (.leaf 20)].map
            (fun t xb => predict_binned_tree t xb))
          (fun j : Unit => bin_sample (fun _ => [1, 3])
            ((fun _ : Unit => fun _ : ℕ => (2 : ℚ)) j)) () := by
  apply raw_predict_eq_predict_binned_on_binned_data
    (fun _ => [1, 3]) ?_ [PredTree.node 0 0 1 (.leaf 10) (.leaf 20)] ?_
  · intro f
    norm_num [List.sorted_cons]
  · intro t ht
    rcases List.mem_singleton.mp ht with rfl
    exact WFTree.node (by norm_num) (by norm_num) (WFTree.leaf _) (WFTree.leaf _)

/-- Claim C6, counterexample: the binner's own output can have gapped codes,
and rebinning such a column with `max_bins` equal to its number of distinct
codes does not reproduce it.  Binning `[0, 1, 5, 5, 9, 10]` with
`max_bins = 4` takes the quantile path (5 distinct values > 4) and learns
thresholds `[2, 5, 8]`, yielding codes `[0, 0, 1, 1, 3, 3]` — code 2 is
skipped because no sample falls in `(5, 8]`.  That output has 3 distinct
codes, yet rebinning it with `max_bins = 3` renumbers it to
`[0, 0, 1, 1, 2, 2]`. -/
theorem fit_transform_idempotence_counterexample :
    fit_transform_col [0, 1, 5, 5, 9, 10] 4 = [0, 0, 1, 1, 3, 3] ∧
      (sortedDistinct ((fit_transform_col [0, 1, 5, 5, 9, 10] 4).map
        (Nat.cast : ℕ → ℚ))).length = 3 ∧
      fit_transform_col ((fit_transform_col [0, 1, 5, 5, 9, 10] 4).map
          (Nat.cast : ℕ → ℚ)) 3
        ≠ fit_transform_col [0, 1, 5, 5, 9, 10] 4 := by
  have h1 : fit_transform_col [0, 1, 5, 5, 9, 10] 4 = [0, 0, 1, 1, 3, 3] := by
    norm_num [fit_transform_col, find_bins_col, sortedDistinct, percentile,
      map_to_bins_col, map_to_bin, List.insertionSort, List.orderedInsert,
      List.destutter, List.destutter', List.range_succ, List.countP_cons,
      show ⌊(5/4 : ℚ)⌋ = 1 from by rw [Int.floor_eq_iff]; norm_num,
      show ⌊(5/2 : ℚ)⌋ = 2 from by rw [Int.floor_eq_iff]; norm_num,
      show ⌊(15/4 : ℚ)⌋ = 3 from by rw [Int.floor_eq_iff]; norm_num,
      show Int.toNat 1 = 1 from rfl, show Int.toNat 2 = 2 from rfl,
      show Int.toNat 3 = 3 from rfl]
  refine ⟨h1, ?_, ?_⟩
  · rw [h1]
    norm_num [sortedDistinct, List.insertionSort, List.orderedInsert,
      List.destutter, List.destutter']
  · rw [h1]
    norm_num [fit_transform_col, find_bins_col, sortedDistinct,
      map_to_bins_col, map_to_bin, List.insertionSort, List.orderedInsert,
      List.destutter, List.destutter', List.countP_cons]
